import Mathlib

/-!
Shallow embedding of the KCSC client (`src/KCSC/app.py`) and of the pieces of
the Python standard library its matching engine depends on
(`str` operations, `difflib.SequenceMatcher.ratio`).

Modelling conventions:
* Python `str` values are `List Char` (code-point sequences; Python indexing,
  `len` and slicing coincide with list operations on code points).
* Python `float` time stamps and similarity ratios are `ℚ`.  All arithmetic
  the code performs on them (sums, differences, `2*M/T`, comparisons against
  `0.20` and `6*3600`) is exact on rationals of the small denominators that
  actually occur, so no double-rounding behaviour is lost.
* JSON catalog entries are dictionaries with string-or-null values,
  modelled as association lists `List (List Char × Option (List Char))`.
* Recursions that are not structural in Python (string scans) are written
  with an explicit fuel argument that provably never runs out, so that every
  definition reduces inside the kernel (`decide` / `rfl` work on them).
-/

/-- Shorthand: the `List Char` representation of a string literal. -/
def cs (s : String) : List Char := s.toList

/-- Python `str.lower`, character-wise (`Char.toLower`; ASCII case folding —
the catalog data is Korean/ASCII, which one-to-one folding covers). -/
def pyLower (s : List Char) : List Char := s.map Char.toLower

/-- Python `str.strip()`: drop leading and trailing whitespace. -/
def pyStrip (s : List Char) : List Char :=
  ((s.dropWhile Char.isWhitespace).reverse.dropWhile Char.isWhitespace).reverse

/-- Python `str.lstrip()`: drop leading whitespace (app.py line 88). -/
def pyLstrip (s : List Char) : List Char := s.dropWhile Char.isWhitespace

/-- Python substring test `pat in s`. -/
def occursIn (pat : List Char) : List Char → Bool
  | [] => pat.isEmpty
  | c :: t => pat.isPrefixOf (c :: t) || occursIn pat t

/-- Python `str.split()` (split on whitespace runs, no empty fields),
with a fuel argument for kernel reducibility; `pySplitWs` supplies
enough fuel (one unit per character). -/
def pySplitWsAux : ℕ → List Char → List (List Char)
  | 0, _ => []
  | _, [] => []
  | f + 1, c :: t =>
    if c.isWhitespace then pySplitWsAux f t
    else (c :: t.takeWhile (fun d => !d.isWhitespace)) ::
      pySplitWsAux f (t.dropWhile (fun d => !d.isWhitespace))

/-- Python `keyword.split()`. -/
def pySplitWs (s : List Char) : List (List Char) := pySplitWsAux s.length s

/-- Python `s.replace(key, rep)` for a non-empty `key` (the only way
`_redact_key` calls it: the `if key` guard rules out the empty needle):
scan left to right, replace leftmost non-overlapping occurrences.
Fuel: one unit per consumed character, supplied by `pyReplace`. -/
def pyReplaceAux (key rep : List Char) : ℕ → List Char → List Char
  | 0, s => s
  | _, [] => []
  | f + 1, c :: t =>
    if !key.isEmpty && key.isPrefixOf (c :: t) then
      rep ++ pyReplaceAux key rep f (t.drop (key.length - 1))
    else c :: pyReplaceAux key rep f t

/-- Python `s.replace(key, rep)` (non-empty `key`). -/
def pyReplace (s key rep : List Char) : List Char := pyReplaceAux key rep s.length s

/-- The fixed redaction marker of `KCSCBot._redact_key` (app.py 67-69). -/
def redact_marker : List Char := cs "***REDACTED***"

/-- Embeds `KCSCBot._redact_key(text, key)` (app.py 67-69):
`(text or "").replace(key, "***REDACTED***") if key else (text or "")`.
A `None` text coalesced by `text or ""` is modelled by the empty list. -/
def redact_key (text key : List Char) : List Char :=
  if key.isEmpty then text else pyReplace text key redact_marker

/-! ### Catalog entries and alias-key probing -/

/-- One JSON object with string-or-null fields, as returned by the CodeList
endpoint: an association list of key/value pairs (`none` models JSON null). -/
abbrev Item := List (List Char × Option (List Char))

/-- Embeds `KCSCBot._get_first(item, keys, default="")` (app.py 71-77): probe the
alias keys in order, return the first present value that is neither null nor
the empty string (the only default ever used is `""`, inlined here). -/
def get_first (it : Item) : List (List Char) → List Char
  | [] => []
  | k :: ks =>
    match List.lookup k it with
    | some (some v) => if v.isEmpty then get_first it ks else v
    | _ => get_first it ks

/-- Embeds `name_keys` of `search_codes_local` (app.py 198). -/
def name_keys : List (List Char) := [cs "Name", cs "name", cs "TITLE", cs "Title"]

/-- Embeds `code_keys` of `search_codes_local` (app.py 199). -/
def code_keys : List (List Char) := [cs "Code", cs "code", cs "CODE", cs "FullCode", cs "fullCode"]

/-- Embeds `get_name` (app.py 201-202). -/
def get_name (it : Item) : List Char := get_first it name_keys

/-- Embeds `get_code` (app.py 204-205). -/
def get_code (it : Item) : List Char := get_first it code_keys

/-! ### Keyword normalisation (`KCSCBot._normalize_tokens`, app.py 153-191) -/

/-- Alternatives of the first strip pattern
`r"^(최소|최대|기준|규정|설계|시공|내구|내구성|환경|노출|조건)"`, in regex
alternation order.  (The alternative `내구성` is unreachable: `내구` precedes
it and matches every string `내구성` matches.) -/
def pfxAlts : List (List Char) :=
  [cs "최소", cs "최대", cs "기준", cs "규정", cs "설계", cs "시공",
   cs "내구", cs "내구성", cs "환경", cs "노출", cs "조건"]

/-- Alternatives of the second strip pattern `r"(기준|규정|환경|노출|조건)$"`.
All are two characters long, so the only match position is `len - 2` and the
alternation order is irrelevant. -/
def sfxAlts : List (List Char) :=
  [cs "기준", cs "규정", cs "환경", cs "노출", cs "조건"]

/-- Embeds `re.sub` of the anchored-at-start pattern: at most one substitution, the
first alternative (in alternation order) that is a prefix is removed. -/
def subPfx (t : List Char) : List Char :=
  match pfxAlts.find? (fun a => a.isPrefixOf t) with
  | some a => t.drop a.length
  | none => t

/-- Embeds `re.sub` of the anchored-at-end pattern: since every alternative has
length 2, a match exists iff the last two characters equal one of them. -/
def subSfx (t : List Char) : List Char :=
  if 2 ≤ t.length && sfxAlts.contains (t.drop (t.length - 2)) then
    t.take (t.length - 2)
  else t

/-- The six substring-triggered synonym expansions (app.py 170-181), in
source order, concatenated exactly as the successive `expanded += [...]`. -/
def synExp (t : List Char) : List (List Char) :=
  (if occursIn (cs "피복") t then [cs "피복", cs "피복두께"] else []) ++
  (if occursIn (cs "피복두께") t then [cs "피복두께", cs "피복"] else []) ++
  (if occursIn (cs "염해") t || occursIn (cs "해안") t then
    [cs "염해", cs "해안", cs "염분"] else []) ++
  (if occursIn (cs "내구") t then [cs "내구", cs "내구성", cs "내구설계"] else []) ++
  (if occursIn (cs "철근") t then [cs "철근", cs "철근콘크리트", cs "RC"] else []) ++
  (if occursIn (cs "콘크리트") t then [cs "콘크리트", cs "철근콘크리트", cs "RC"] else [])

/-- The `expanded` list built by the main loop of `_normalize_tokens`
(app.py 162-181): per raw token, the affix-stripped variant (if non-empty and
not itself a raw token) followed by the synonym expansions. -/
def expandedOf (raw : List (List Char)) : List (List Char) :=
  raw.foldl
    (fun acc t =>
      let t0 := pyStrip (subSfx (subPfx t))
      (acc ++ (if !t0.isEmpty && !raw.contains t0 then [t0] else [])) ++ synExp t)
    []

/-- The final dedup loop of `_normalize_tokens` (app.py 184-191): strip each
token, drop tokens shorter than two characters, keep first occurrences. -/
def dedupMin2 (tokens : List (List Char)) : List (List Char) :=
  tokens.foldl
    (fun uniq t =>
      let t1 := pyStrip t
      if t1.length < 2 then uniq
      else if uniq.contains t1 then uniq else uniq ++ [t1])
    []

/-- Embeds `KCSCBot._normalize_tokens(keyword)` (app.py 153-191). -/
def normalize_tokens (keyword : List Char) : List (List Char) :=
  let raw := pySplitWs keyword
  dedupMin2 (raw ++ expandedOf raw)

/-! ### Primary substring scoring and the stable descending sort -/

/-- Embeds `score_contains(it)` (app.py 207-216): 10 points per token whose
lowercase form is a substring of the lowercase resolved name; 0 when the
name resolves to the empty string. -/
def score_contains (tokens : List (List Char)) (it : Item) : ℕ :=
  let name := get_name it
  if name.isEmpty then 0
  else
    let name_l := pyLower name
    tokens.foldl (fun s t => if occursIn (pyLower t) name_l then s + 10 else s) 0

/-- Insert `x` in front of the first element whose key is not greater —
the insertion step of a stable descending insertion sort. -/
def insertDescBy {α β : Type} [LinearOrder β] (f : α → β) (x : α) : List α → List α
  | [] => [x]
  | y :: ys => if f x < f y then y :: insertDescBy f x ys else x :: y :: ys

/-- Stable sort by descending key: the semantics of Python
`sorted(items, key=f, reverse=True)` (a stable descending sort, per the
language reference; stable sorting by a key is a unique function, so any
stable implementation is a faithful model). -/
def sortDescBy {α β : Type} [LinearOrder β] (f : α → β) : List α → List α
  | [] => []
  | x :: xs => insertDescBy f x (sortDescBy f xs)

/-- The primary ranked list (app.py 218-219): sort all items by descending
substring score, then keep the positively scored ones. -/
def rankedPrimary (tokens : List (List Char)) (items : List Item) : List Item :=
  (sortDescBy (score_contains tokens) items).filter
    (fun it => decide (0 < score_contains tokens it))

/-! ### difflib `SequenceMatcher` (CPython, `isjunk=None`, `autojunk=True`)

The fallback pass calls `SequenceMatcher(None, key.lower(), name.lower()).ratio()`.
`ratio` is `2*M/T` where `M` is the total size of the matching blocks found by
the recursive `find_longest_match` sweep and `T` the sum of the lengths.
With `isjunk=None` the junk set `bjunk` is empty, so of the four extension
loops of `find_longest_match` only the two non-junk ones can fire; `autojunk`
purges popular characters from `b2j` when `len(b) >= 200` (they stay
matchable through the extension loops — the source of the asymmetry below). -/

/-- Ascending positions of `c` in `b` (one `b2j` entry before the purge). -/
def charPositions (b : List Char) (c : Char) : List ℕ :=
  (List.range b.length).filter (fun j => decide (b.get? j = some c))

/-- Embeds `b2j` lookup after the autojunk purge (`__chain_b`): positions of `c` in
`b`, or nothing when `len(b) >= 200` and `c` occurs more than
`len(b) // 100 + 1` times. -/
def b2j (b : List Char) (c : Char) : List ℕ :=
  if 200 ≤ b.length ∧ b.length / 100 + 1 < b.count c then [] else charPositions b c

/-- A candidate longest match: start in `a`, start in `b`, size. -/
structure SMBest where
  i : ℕ
  j : ℕ
  size : ℕ
deriving DecidableEq

/-- One cell of the `find_longest_match` inner loop: `jold` is the previous
row's `j2len`, the accumulator holds the row being built (`newj2len`) and the
best block so far.  `k = j2len.get(j-1, 0) + 1` (the `j = 0` case reads the
absent key `-1`, hence 0), and the best is replaced only on a strictly larger
size.  Python's `i-k+1`/`j-k+1` are written `i+1-k`/`j+1-k` (equal, since
`k ≤ i+1` and `k ≤ j+1` always hold); with ℕ truncation this spelling is the
faithful one. -/
def scanCell (jold : ℕ → ℕ) (i : ℕ) (acc : (ℕ → ℕ) × SMBest) (j : ℕ) :
    (ℕ → ℕ) × SMBest :=
  let k := (if j = 0 then 0 else jold (j - 1)) + 1
  ((fun j2 => if j2 = j then k else acc.1 j2),
   if acc.2.size < k then ⟨i + 1 - k, j + 1 - k, k⟩ else acc.2)

/-- One row `i` of the scan: visit the positions of `a[i]` in `b` lying in
`[blo, bhi)` (the `continue`/`break` pair on an ascending list equals this
filter), starting from an empty `newj2len`. -/
def scanRow (a b : List Char) (blo bhi : ℕ) (st : (ℕ → ℕ) × SMBest) (i : ℕ) :
    (ℕ → ℕ) × SMBest :=
  let js := (b2j b (a.getD i ' ')).filter (fun j => decide (blo ≤ j) && decide (j < bhi))
  js.foldl (scanCell st.1 i) ((fun _ => 0), st.2)

/-- The full dynamic-programming sweep of `find_longest_match` over rows
`alo, …, ahi-1`, best initialised to `(alo, blo, 0)`. -/
def scanAll (a b : List Char) (alo ahi blo bhi : ℕ) : SMBest :=
  ((List.range' alo (ahi - alo)).foldl (scanRow a b blo bhi)
    ((fun _ => 0), ⟨alo, blo, 0⟩)).2

/-- In-range character equality (`a[i] == b[j]` with both indices valid). -/
def chEq (x y : Option Char) : Bool :=
  match x, y with
  | some cx, some cy => cx == cy
  | _, _ => false

/-- The backward extension loop
(`while besti > alo and bestj > blo and a[besti-1] == b[bestj-1]`),
structural in `besti`. -/
def extendBack (a b : List Char) (alo blo : ℕ) : ℕ → ℕ → ℕ → SMBest
  | 0, j, k => ⟨0, j, k⟩
  | i + 1, j, k =>
    if alo ≤ i ∧ blo < j ∧ chEq (a.get? i) (b.get? (j - 1)) then
      extendBack a b alo blo i (j - 1) (k + 1)
    else ⟨i + 1, j, k⟩

/-- The forward extension loop
(`while besti+bestsize < ahi and bestj+bestsize < bhi and a[..] == b[..]`),
with fuel `ahi - (i + k)`: the guard `i + k < ahi` fails exactly when the
fuel would run out, so the fueled loop equals the unbounded one. -/
def extendFwdAux (a b : List Char) (ahi bhi i j : ℕ) : ℕ → ℕ → ℕ
  | 0, k => k
  | f + 1, k =>
    if i + k < ahi ∧ j + k < bhi ∧ chEq (a.get? (i + k)) (b.get? (j + k)) then
      extendFwdAux a b ahi bhi i j f (k + 1)
    else k

/-- The forward extension loop, fuelled adequately. -/
def extendFwd (a b : List Char) (ahi bhi i j k : ℕ) : ℕ :=
  extendFwdAux a b ahi bhi i j (ahi - (i + k)) k

/-- Embeds `SequenceMatcher.find_longest_match(alo, ahi, blo, bhi)` with empty junk:
scan, extend backward, extend forward (the junk-extension loops never fire). -/
def find_longest_match (a b : List Char) (alo ahi blo bhi : ℕ) : SMBest :=
  let s := scanAll a b alo ahi blo bhi
  let s2 := extendBack a b alo blo s.i s.j s.size
  ⟨s2.i, s2.j, extendFwd a b ahi bhi s2.i s2.j s2.size⟩

/-- Total size of all matching blocks of `get_matching_blocks` on the range
`[alo,ahi) × [blo,bhi)`: the queue in Python visits exactly this recursion
tree (order does not affect the sum, and the final adjacent-block merge
preserves it).  Fuel decreases by at least one per recursion because the
ranges shrink strictly (see `flm_size_bounds`); `smMatches` supplies
`(ahi-alo)+(bhi-blo)+1`, which `matchesFuel_congr` proves sufficient. -/
def matchesFuel (a b : List Char) : ℕ → ℕ → ℕ → ℕ → ℕ → ℕ
  | 0, _, _, _, _ => 0
  | f + 1, alo, ahi, blo, bhi =>
    let s := find_longest_match a b alo ahi blo bhi
    if s.size = 0 then 0
    else
      s.size +
        (if alo < s.i ∧ blo < s.j then matchesFuel a b f alo s.i blo s.j else 0) +
        (if s.i + s.size < ahi ∧ s.j + s.size < bhi then
          matchesFuel a b f (s.i + s.size) ahi (s.j + s.size) bhi else 0)

/-- Embeds `matches = sum(triple[-1] for triple in self.get_matching_blocks())`. -/
def smMatches (a b : List Char) : ℕ :=
  matchesFuel a b (a.length + b.length + 1) 0 a.length 0 b.length

/-- Embeds `SequenceMatcher.ratio()` via `_calculate_ratio(matches, len(a)+len(b))`:
`2*M/T`, or `1.0` when both sequences are empty. -/
def sm_ratio (a b : List Char) : ℚ :=
  if a.length + b.length = 0 then 1
  else 2 * (smMatches a b : ℚ) / ((a.length : ℚ) + (b.length : ℚ))

/-- The similarity actually used by the fallback pass (app.py 229):
`SequenceMatcher(None, x.lower(), y.lower()).ratio()`. -/
def sm_ratio_ci (x y : List Char) : ℚ := sm_ratio (pyLower x) (pyLower y)

/-! ### Fallback ranking and the post-filter (app.py 218-249) -/

/-- Embeds `key_compact = "".join(tokens) if tokens else keyword` (app.py 223). -/
def fallbackKey (tokens : List (List Char)) (keyword : List Char) : List Char :=
  if tokens.isEmpty then keyword else tokens.flatten

/-- Embeds `ratio(it)` (app.py 225-229): 0.0 for an unresolvable name, else the
case-folded `SequenceMatcher` ratio against `key_compact`. -/
def fuzz_ratio (key_compact : List Char) (it : Item) : ℚ :=
  let name := get_name it
  if name.isEmpty then 0 else sm_ratio_ci key_compact name

/-- The fallback ranked list (app.py 231-233): sort by descending ratio,
keep ratios `≥ 0.20` (`0.20` is exactly representable in this ℚ model; the
double rounding of CPython cannot separate the small-denominator ratios that
occur from `1/5` — see the file header). -/
def rankedFallback (key_compact : List Char) (items : List Item) : List Item :=
  (sortDescBy (fuzz_ratio key_compact) items).filter
    (fun it => decide ((1 : ℚ)/5 ≤ fuzz_ratio key_compact it))

/-- The ranked list handed to the post-filter: the primary list, or the
fallback list when the primary one is empty (app.py 218-233). -/
def rankedOf (items : List Item) (keyword : List Char) : List Item :=
  let tokens := normalize_tokens keyword
  let ranked := rankedPrimary tokens items
  if ranked.isEmpty then rankedFallback (fallbackKey tokens keyword) items
  else ranked

/-- The post-filter loop (app.py 235-240): walk the ranked list, keep
entries whose resolved code is non-empty after `strip()`, and break as soon
as the collected list has reached `top_k` entries (the break test runs after
the conditional append, also on iterations that appended nothing). -/
def collect_clean (top_k : ℕ) (acc : List Item) : List Item → List Item
  | [] => acc
  | it :: rest =>
    let acc1 := if !(pyStrip (get_code it)).isEmpty then acc ++ [it] else acc
    if top_k ≤ acc1.length then acc1 else collect_clean top_k acc1 rest

/-- Embeds `KCSCBot.search_codes_local(keyword, doc_type, top_k)` (app.py 193-249).
The catalog `items` is passed explicitly (in the source it is the result of
`get_code_list(doc_type)`); the debug writes to `st.session_state`
(app.py 242-248) do not influence the returned value and are omitted. -/
def search_codes_local (items : List Item) (keyword : List Char) (top_k : ℕ) :
    List Item :=
  collect_clean top_k [] (rankedOf items keyword)

/-! ### The HTTP/JSON layer (`KCSCBot._get_json`, app.py 79-108)

The transport (`requests.Session.get`, `raise_for_status`, `res.json()`) is
an oracle: it either fails (network error / non-2xx status) or yields the
final response URL, the body text, and the result of the JSON parse attempt
(`none` when `res.json()` would raise).  `_get_json` itself contributes the
URL construction, the `key` set-default, the HTML sniff and the error
classification, which are modelled from the source below. -/

/-- The request `_get_json` issues: final URL path and query parameters. -/
structure Request where
  url : List Char
  params : List (List Char × List Char)
deriving DecidableEq

/-- Transport oracle outcome: failure, or response URL + body + parse result. -/
inductive NetOut (α : Type) where
  | fail : NetOut α
  | resp : List Char → List Char → Option α → NetOut α

/-- Embeds `self.base_url` (app.py 49). -/
def base_url : List Char := cs "https://kcsc.re.kr/OpenApi"

/-- Embeds `params.setdefault("key", self.api_key)` (app.py 83): append the lowercase
`key` parameter only when no `key` parameter is present. -/
def setdefaultKey (params : List (List Char × List Char)) (apiKey : List Char) :
    List (List Char × List Char) :=
  if (List.lookup (cs "key") params).isSome then params
  else params ++ [(cs "key", apiKey)]

/-- The request `_get_json(endpoint, params, path=path)` sends (app.py 80-85):
`{base_url}/{path}` when a path is given, else `{base_url}/{endpoint}`. -/
def json_request (apiKey endpoint : List Char)
    (params : List (List Char × List Char)) (path : Option (List Char)) : Request :=
  { url := base_url ++ cs "/" ++ path.getD endpoint,
    params := setdefaultKey params apiKey }

/-- The HTML sniff (app.py 91):
`text.lower().startswith("<!doctype html") or text.lower().startswith("<html")`. -/
def htmlDetect (text : List Char) : Bool :=
  (cs "<!doctype html").isPrefixOf (pyLower text) || (cs "<html").isPrefixOf (pyLower text)

/-- Redacted diagnostic data carried by a `_get_json` failure: the
key-redacted response URL and the key-redacted 500-character body excerpt. -/
structure Diag where
  url : List Char
  snippet : List Char
deriving DecidableEq

/-- The error taxonomy of the fetch layer (spec §7): transport failure,
HTML-instead-of-JSON (app.py 91-97), JSON-parse failure (app.py 99-108). -/
inductive FetchErr where
  | transport : FetchErr
  | unexpectedContentType : Diag → FetchErr
  | formatError : Diag → FetchErr
deriving DecidableEq

/-- Embeds `KCSCBot._get_json(endpoint, params, path=path)` (app.py 79-108):
build the request, consult the transport, `lstrip` the body, classify. -/
def get_json {α : Type} (apiKey : List Char) (net : Request → NetOut α)
    (endpoint : List Char) (params : List (List Char × List Char))
    (path : Option (List Char)) : Except FetchErr α :=
  match net (json_request apiKey endpoint params path) with
  | .fail => .error .transport
  | .resp resUrl body parsed =>
    let text := pyLstrip body
    if htmlDetect text then
      .error (.unexpectedContentType
        ⟨redact_key resUrl apiKey, redact_key (text.take 500) apiKey⟩)
    else
      match parsed with
      | some v => .ok v
      | none =>
        .error (.formatError
          ⟨redact_key resUrl apiKey, redact_key (text.take 500) apiKey⟩)

/-! ### The catalog cache (`KCSCBot.get_code_list`, app.py 134-151)

`st.session_state` is one string-keyed dictionary holding the catalog under
`"kcsc_codelist_{type}"` and its fetch time under `"kcsc_codelist_{type}_ts"`;
values of the two families are lists and floats respectively, modelled by the
sum `SVal`.  Time is ℚ (seconds, `time.time()`). -/

/-- A session-state value: a cached catalog or a timestamp. -/
inductive SVal where
  | vcat : List Item → SVal
  | vnum : ℚ → SVal
deriving DecidableEq

/-- The session-state dictionary. -/
abbrev SessionState := List (List Char × SVal)

/-- Dictionary read (`st.session_state[k]` / `k in st.session_state`). -/
def sget (st : SessionState) (k : List Char) : Option SVal := List.lookup k st

/-- Dictionary write (`st.session_state[k] = v`): overwrite unconditionally. -/
def sset (st : SessionState) (k : List Char) (v : SVal) : SessionState :=
  (k, v) :: st.filter (fun kv => !(kv.1 == k))

/-- Embeds `cache_key = f"kcsc_codelist_{doc_type}"` (app.py 135). -/
def cache_key (doc_type : List Char) : List Char := cs "kcsc_codelist_" ++ doc_type

/-- Embeds `ts_key = f"{cache_key}_ts"` (app.py 136). -/
def ts_key (doc_type : List Char) : List Char := cache_key doc_type ++ cs "_ts"

/-- The freshness test of app.py 139-140: both keys present, the stored
timestamp is a number, and `now - ts < 6*3600`.  (A non-numeric value under
the timestamp key would make `now - st[ts_key]` raise, never a hit.) -/
def cache_hit (st : SessionState) (now : ℚ) (doc_type : List Char) : Bool :=
  match sget st (cache_key doc_type), sget st (ts_key doc_type) with
  | some _, some (SVal.vnum ts) => decide (now - ts < 6 * 3600)
  | _, _ => false

/-- The parsed CodeList payload handed to the `isinstance(data, list)` check
(app.py 146): a JSON array of entries, or something else (carrying the
type name interpolated into the error message). -/
inductive CodeListResp where
  | arr : List Item → CodeListResp
  | nonList : List Char → CodeListResp
deriving DecidableEq

/-- Failures of `get_code_list`: a `_get_json` failure, the
`"CodeList 응답 형식이 예상과 다릅니다"` RuntimeError for a non-list payload,
or the TypeError `now - st[ts_key]` would raise on a non-numeric timestamp. -/
inductive CacheErr where
  | fetch : FetchErr → CacheErr
  | badShape : List Char → CacheErr
  | typeErr : CacheErr
deriving DecidableEq

/-- The fetch-and-store path of `get_code_list` (app.py 143-151): validate
the payload shape, then overwrite catalog and timestamp unconditionally. -/
def get_code_list_fetch (st : SessionState) (now : ℚ) (doc_type : List Char)
    (fetched : Except FetchErr CodeListResp) : Except CacheErr (SVal × SessionState) :=
  match fetched with
  | .error e => .error (.fetch e)
  | .ok (.nonList tn) => .error (.badShape tn)
  | .ok (.arr data) =>
    let st1 := sset st (cache_key doc_type) (SVal.vcat data)
    let st2 := sset st1 (ts_key doc_type) (SVal.vnum now)
    .ok (SVal.vcat data, st2)

/-- Embeds `KCSCBot.get_code_list(doc_type)` (app.py 134-151).  `now` is the
`time.time()` read at entry; `fetched` is the outcome `_get_json("CodeList",
params={"Type": doc_type})` would produce.  A hit returns the stored value
(whatever it is) with the state untouched; a well-typed stale or absent
record falls through to the fetch path. -/
def get_code_list (st : SessionState) (now : ℚ) (doc_type : List Char)
    (fetched : Except FetchErr CodeListResp) : Except CacheErr (SVal × SessionState) :=
  match sget st (cache_key doc_type), sget st (ts_key doc_type) with
  | some v, some (SVal.vnum ts) =>
    if now - ts < 6 * 3600 then .ok (v, st)
    else get_code_list_fetch st now doc_type fetched
  | some _, some (SVal.vcat _) => .error .typeErr
  | _, _ => get_code_list_fetch st now doc_type fetched

/-- The session state produced by the store of app.py 149-150. -/
def put_state (st : SessionState) (now : ℚ) (doc_type : List Char)
    (data : List Item) : SessionState :=
  sset (sset st (cache_key doc_type) (SVal.vcat data)) (ts_key doc_type) (SVal.vnum now)

/-! ### The content fetcher and flattener (`KCSCBot.get_content`, app.py 252-280) -/

/-- A field value of a CodeViewer response object: JSON null, a string, or
the section list (a JSON array of string-or-null objects). -/
inductive VVal where
  | vnull : VVal
  | vstr : List Char → VVal
  | vsecs : List Item → VVal
deriving DecidableEq

/-- A CodeViewer response object (string-keyed dictionary). -/
abbrev ViewerObj := List (List Char × VVal)

/-- The parsed CodeViewer payload: a JSON array (app.py 259-262 takes its
first element) or a single object. -/
inductive ViewerResp where
  | varr : List ViewerObj → ViewerResp
  | vobj : ViewerObj → ViewerResp
deriving DecidableEq

/-- Python truthiness of the values that occur here: `None`, `""` and `[]`
are falsy. -/
def vTruthy : VVal → Bool
  | .vnull => false
  | .vstr s => !s.isEmpty
  | .vsecs ss => !ss.isEmpty

/-- A Python `x or y or …` chain over optional dictionary reads: the first
present truthy value, if any. -/
def orChainV : List (Option VVal) → Option VVal
  | [] => none
  | some v :: rest => if vTruthy v then some v else orChainV rest
  | none :: rest => orChainV rest

/-- Python `repr` of a string, simplified to the quoting actually exercised
here: single quotes, with backslash and single quote escaped (the alternate
double-quote form and control-character escapes are not modelled; this
rendering is only reachable through a pathological non-string `Name` field,
which no theorem below relies on). -/
def pyReprStr (s : List Char) : List Char :=
  '\'' :: (s.foldr (fun c acc =>
    (if c = '\'' ∨ c = '\\' then ['\\', c] else [c]) ++ acc) []) ++ ['\'']

/-- Python `repr` of a string-or-null dictionary (same caveat as above). -/
def pyReprItem (it : Item) : List Char :=
  cs "\x7b" ++
    (List.intercalate (cs ", ")
      (it.map (fun kv =>
        pyReprStr kv.1 ++ cs ": " ++
          match kv.2 with
          | some v => pyReprStr v
          | none => cs "None"))) ++ cs "\x7d"

/-- Python `str(v)` for the values a CodeViewer object can hold:
strings render as themselves, `str(None) = "None"`, and a list renders via
`repr` (see the caveat on `pyReprStr`). -/
def pyStrV : VVal → List Char
  | .vstr s => s
  | .vnull => cs "None"
  | .vsecs ss => cs "[" ++ List.intercalate (cs ", ") (ss.map pyReprItem) ++ cs "]"

/-- Embeds `KCSCBot._strip_html(s)` (app.py 58-65): empty stays empty; text with
both `<` and `>` goes through the external HTML-to-text capability
(BeautifulSoup `get_text(separator="\n", strip=True)`), passed in as the
oracle `bs`; anything else is returned unchanged. -/
def strip_html (bs : List Char → List Char) (s : List Char) : List Char :=
  if s.isEmpty then []
  else if s.contains '<' && s.contains '>' then bs s
  else s

/-- Embeds `sec.get(k) or sec.get(k2) or ""` over string-or-null dictionary reads,
followed by `str(·)` — the result is always a string. -/
def strOrChain : List (Option (Option (List Char))) → List Char
  | [] => []
  | some (some s) :: rest => if s.isEmpty then strOrChain rest else s
  | _ :: rest => strOrChain rest

/-- One section of the flattener loop (app.py 269-276): a non-empty stripped
title yields `f"## {title}\n{contents}".strip()`, otherwise
`contents.strip()`, with the body markup-stripped first. -/
def sectionPart (bs : List Char → List Char) (sec : Item) : List Char :=
  let title := pyStrip (strOrChain
    [List.lookup (cs "Title") sec, List.lookup (cs "title") sec])
  let contents := strip_html bs (strOrChain
    [List.lookup (cs "Contents") sec, List.lookup (cs "contents") sec])
  if !title.isEmpty then pyStrip (cs "## " ++ title ++ cs "\n" ++ contents)
  else pyStrip contents

/-- Embeds `"\n\n".join([p for p in parts if p])` (app.py 280). -/
def joinParts (parts : List (List Char)) : List Char :=
  List.intercalate (cs "\n\n") (parts.filter (fun p => !p.isEmpty))

/-- The per-object part of `get_content` (app.py 264-280): resolve the
display name over `Name`/`name`, take the section list over `List`/`list`
(defaulting to the empty list), flatten each section, and join. -/
def flattenViewerObj (bs : List Char → List Char) (d : ViewerObj) :
    List Char × List Char :=
  let code_name :=
    match orChainV [List.lookup (cs "Name") d, List.lookup (cs "name") d] with
    | some v => pyStrV v
    | none => []
  let parts : List (List Char) :=
    match (orChainV [List.lookup (cs "List") d, List.lookup (cs "list") d]).getD
        (VVal.vsecs []) with
    | .vsecs ss => ss.map (sectionPart bs)
    | .vstr s => [strip_html bs s]
    | .vnull => [strip_html bs (pyStrV .vnull)]
  (code_name, joinParts parts)

/-- App.py 259-262 plus the flattening: a list payload contributes its first
element (or yields the empty result), an object is processed directly.  The
`.vnull` branch of `flattenViewerObj` is unreachable (null is falsy in the
or-chain, whose default is the empty list). -/
def flattenViewer (bs : List Char → List Char) (data : ViewerResp) :
    List Char × List Char :=
  match data with
  | .varr [] => ([], [])
  | .varr (d :: _) => flattenViewerObj bs d
  | .vobj d => flattenViewerObj bs d

/-- The first (query-parameter) request of `get_content` (app.py 255). -/
def cv_query_request (apiKey doc_type code : List Char) : Request :=
  json_request apiKey (cs "CodeViewer") [(cs "Type", doc_type), (cs "Code", code)] none

/-- The retry (path-segment) request of `get_content` (app.py 257). -/
def cv_path_request (apiKey doc_type code : List Char) : Request :=
  json_request apiKey (cs "") []
    (some (cs "CodeViewer/" ++ doc_type ++ cs "/" ++ code))

/-- Embeds `KCSCBot.get_content(code, doc_type)` (app.py 252-280), instrumented
with the list of requests it issues: the query-parameter attempt first; on
any failure (`except Exception`) exactly one retry with the path-segment
shape; a second failure propagates.  `bs` is the HTML-to-text oracle. -/
def get_content (apiKey : List Char) (bs : List Char → List Char)
    (net : Request → NetOut ViewerResp) (code doc_type : List Char) :
    Except FetchErr (List Char × List Char) × List Request :=
  match get_json apiKey net (cs "CodeViewer")
      [(cs "Type", doc_type), (cs "Code", code)] none with
  | .ok data =>
    (.ok (flattenViewer bs data), [cv_query_request apiKey doc_type code])
  | .error _ =>
    match get_json apiKey net (cs "") []
        (some (cs "CodeViewer/" ++ doc_type ++ cs "/" ++ code)) with
    | .ok data =>
      (.ok (flattenViewer bs data),
       [cv_query_request apiKey doc_type code, cv_path_request apiKey doc_type code])
    | .error e2 =>
      (.error e2,
       [cv_query_request apiKey doc_type code, cv_path_request apiKey doc_type code])

/-! ## Verification -/

/-! ### Session-state dictionary lemmas -/

theorem sget_sset_self (st : SessionState) (k : List Char) (v : SVal) :
    sget (sset st k v) k = some v := by
  simp [sget, sset, List.lookup]

theorem lookup_filter_ne {k2 k : List Char} (h : k2 ≠ k) (st : SessionState) :
    List.lookup k2 (st.filter (fun kv => !(kv.1 == k))) = List.lookup k2 st := by
  induction st with
  | nil => rfl
  | cons kv rest ih =>
    by_cases hk : kv.1 = k
    · have h3 : (k2 == k) = false := by simp [h]
      simp [List.filter, hk, List.lookup, h3, ih]
    · simp only [List.filter, List.lookup]
      rw [show (kv.1 == k) = false by simp [hk]]
      simp only [Bool.not_false, List.lookup]
      cases hq : (k2 == kv.1) <;> simp [ih]

theorem sget_sset_ne (st : SessionState) {k2 k : List Char} (v : SVal)
    (h : k2 ≠ k) : sget (sset st k v) k2 = sget st k2 := by
  simp only [sget, sset, List.lookup]
  rw [show (k2 == k) = false by simp [h]]
  exact lookup_filter_ne h st

theorem cache_key_ne_ts_key (doc_type : List Char) :
    cache_key doc_type ≠ ts_key doc_type := by
  intro h
  have hl := congrArg List.length h
  simp [ts_key, cs, List.length_append] at hl

theorem put_state_sget (st : SessionState) (now : ℚ) (doc_type : List Char)
    (data : List Item) :
    sget (put_state st now doc_type data) (cache_key doc_type) = some (SVal.vcat data) ∧
    sget (put_state st now doc_type data) (ts_key doc_type) = some (SVal.vnum now) := by
  constructor
  · rw [put_state, sget_sset_ne _ _ (cache_key_ne_ts_key doc_type)]
    exact sget_sset_self ..
  · exact sget_sset_self ..

/-- C4: a `get_code_list` lookup is a HIT — it returns the stored record with
the state untouched, independently of what a fetch would produce — exactly
when a record and a numeric timestamp are stored for the type and
`now - ts < 6*3600` (strictly); the code's freshness test `cache_hit` decides
precisely that condition; the store path overwrites both keys
unconditionally; and after a put at time `t`, a lookup at `t + TTL - 1` is a
HIT while a lookup at `t + TTL + 1` is a MISS. -/
theorem cache_ttl (st : SessionState) (now t : ℚ) (doc_type : List Char)
    (items : List Item) :
    ((∃ v, sget st (cache_key doc_type) = some v ∧
        ∀ fetched, get_code_list st now doc_type fetched = .ok (v, st)) ↔
      (∃ v ts, sget st (cache_key doc_type) = some v ∧
        sget st (ts_key doc_type) = some (SVal.vnum ts) ∧ now - ts < 6 * 3600)) ∧
    (cache_hit st now doc_type = true ↔
      (∃ v ts, sget st (cache_key doc_type) = some v ∧
        sget st (ts_key doc_type) = some (SVal.vnum ts) ∧ now - ts < 6 * 3600)) ∧
    (get_code_list_fetch st t doc_type (.ok (.arr items)) =
      .ok (SVal.vcat items, put_state st t doc_type items)) ∧
    (sget (put_state st t doc_type items) (cache_key doc_type) = some (SVal.vcat items) ∧
     sget (put_state st t doc_type items) (ts_key doc_type) = some (SVal.vnum t)) ∧
    (cache_hit (put_state st t doc_type items) (t + 6 * 3600 - 1) doc_type = true ∧
     cache_hit (put_state st t doc_type items) (t + 6 * 3600 + 1) doc_type = false) := by
  have hput := put_state_sget st t doc_type items
  refine ⟨?_, ?_, rfl, hput, ?_, ?_⟩
  · constructor
    · rintro ⟨v, hv, hall⟩
      have h1 := hall (.error .transport)
      cases hck : sget st (cache_key doc_type) with
      | none => simp [get_code_list, hck, get_code_list_fetch] at h1
      | some v0 =>
        cases htk : sget st (ts_key doc_type) with
        | none => simp [get_code_list, hck, htk, get_code_list_fetch] at h1
        | some tv =>
          cases tv with
          | vcat c => simp [get_code_list, hck, htk] at h1
          | vnum ts =>
            simp only [get_code_list, hck, htk] at h1
            by_cases hfresh : now - ts < 6 * 3600
            · exact ⟨v0, ts, rfl, rfl, hfresh⟩
            · rw [if_neg hfresh] at h1
              simp [get_code_list_fetch] at h1
    · rintro ⟨v, ts, hck, htk, hfresh⟩
      exact ⟨v, hck, fun fetched => by
        simp only [get_code_list, hck, htk, if_pos hfresh]⟩
  · constructor
    · intro h
      cases hck : sget st (cache_key doc_type) with
      | none => simp [cache_hit, hck] at h
      | some v0 =>
        cases htk : sget st (ts_key doc_type) with
        | none => simp [cache_hit, hck, htk] at h
        | some tv =>
          cases tv with
          | vcat c => simp [cache_hit, hck, htk] at h
          | vnum ts =>
            simp only [cache_hit, hck, htk, decide_eq_true_eq] at h
            exact ⟨v0, ts, rfl, rfl, h⟩
    · rintro ⟨v, ts, hck, htk, hfresh⟩
      simp only [cache_hit, hck, htk, decide_eq_true_eq]
      exact hfresh
  · simp only [cache_hit, hput.1, hput.2, decide_eq_true_eq]
    linarith
  · simp only [cache_hit, hput.1, hput.2, decide_eq_false_iff_not, not_lt]
    linarith

/-- Witness for `cache_ttl` at a concrete state, time and type: the TTL
boundary behaviour after a put into the empty session state. -/
theorem cache_ttl_witness :
    cache_hit (put_state [] 1000 (cs "KCS") []) (1000 + 6 * 3600 - 1) (cs "KCS") = true ∧
    cache_hit (put_state [] 1000 (cs "KCS") []) (1000 + 6 * 3600 + 1) (cs "KCS") = false :=
  (cache_ttl [] 0 1000 (cs "KCS") []).2.2.2.2

/-- C5: when the `lstrip`-trimmed response body begins, case-insensitively,
with `<html` or `<!doctype html`, `_get_json` fails with the distinct
`UnexpectedContentType` error — never with the JSON-parse `FormatError`,
whatever the parse oracle would have said — and the diagnostic carries the
key-redacted response URL together with the key-redacted body excerpt
`text[:500]`, an excerpt of at most 500 characters. -/
theorem html_detection {α : Type} (apiKey : List Char) (net : Request → NetOut α)
    (endpoint : List Char) (params : List (List Char × List Char))
    (path : Option (List Char)) (resUrl body : List Char) (parsed : Option α)
    (hnet : net (json_request apiKey endpoint params path) = .resp resUrl body parsed)
    (hhtml : (cs "<html").isPrefixOf (pyLower (pyLstrip body)) = true ∨
      (cs "<!doctype html").isPrefixOf (pyLower (pyLstrip body)) = true) :
    get_json apiKey net endpoint params path
      = .error (.unexpectedContentType
          ⟨redact_key resUrl apiKey, redact_key ((pyLstrip body).take 500) apiKey⟩) ∧
    (∀ d, get_json apiKey net endpoint params path ≠ .error (.formatError d)) ∧
    ((pyLstrip body).take 500).length ≤ 500 := by
  have hdet : htmlDetect (pyLstrip body) = true := by
    unfold htmlDetect
    rcases hhtml with h | h <;> simp [h]
  have hmain : get_json apiKey net endpoint params path
      = .error (.unexpectedContentType
          ⟨redact_key resUrl apiKey, redact_key ((pyLstrip body).take 500) apiKey⟩) := by
    simp only [get_json, hnet, hdet, if_true]
  refine ⟨hmain, ?_, ?_⟩
  · intro d
    rw [hmain]
    simp
  · rw [List.length_take]
    omega

/-- Witness for `html_detection`: a concrete HTML body (uppercase, to
exercise the case-insensitive sniff) with a parse oracle that would have
succeeded. -/
theorem html_detection_witness :
    get_json (cs "K1") (fun _ => NetOut.resp (cs "http://u") (cs " <HTML>x") (some (0 : ℕ)))
        (cs "CodeList") [] none
      = .error (.unexpectedContentType
          ⟨redact_key (cs "http://u") (cs "K1"),
           redact_key ((pyLstrip (cs " <HTML>x")).take 500) (cs "K1")⟩) ∧
    (∀ d, get_json (cs "K1") (fun _ => NetOut.resp (cs "http://u") (cs " <HTML>x") (some (0 : ℕ)))
        (cs "CodeList") [] none ≠ .error (.formatError d)) ∧
    ((pyLstrip (cs " <HTML>x")).take 500).length ≤ 500 :=
  html_detection (cs "K1") (fun _ => NetOut.resp (cs "http://u") (cs " <HTML>x") (some (0 : ℕ)))
    (cs "CodeList") [] none (cs "http://u") (cs " <HTML>x") (some 0)
    rfl (Or.inl (by decide))

/-- C8: `get_content` first issues the query-parameter request — endpoint
`/CodeViewer`, parameters `Type`, `Code`, plus the defaulted `key`; when that
attempt fails for any reason it retries exactly once with the path-segment
shape `/CodeViewer/{type}/{code}` (sole parameter the defaulted `key`); a
first success short-circuits (only one request issued), and when both
attempts fail the error of the second attempt propagates. -/
theorem content_retry (apiKey doc_type code : List Char)
    (bs : List Char → List Char) (net : Request → NetOut ViewerResp) :
    ((cv_query_request apiKey doc_type code).url = base_url ++ cs "/CodeViewer" ∧
     (cv_query_request apiKey doc_type code).params
       = [(cs "Type", doc_type), (cs "Code", code), (cs "key", apiKey)]) ∧
    ((cv_path_request apiKey doc_type code).url
       = base_url ++ (cs "/CodeViewer/" ++ doc_type ++ cs "/" ++ code) ∧
     (cv_path_request apiKey doc_type code).params = [(cs "key", apiKey)]) ∧
    (∀ data, get_json apiKey net (cs "CodeViewer")
        [(cs "Type", doc_type), (cs "Code", code)] none = .ok data →
      get_content apiKey bs net code doc_type
        = (.ok (flattenViewer bs data), [cv_query_request apiKey doc_type code])) ∧
    (∀ e1, get_json apiKey net (cs "CodeViewer")
        [(cs "Type", doc_type), (cs "Code", code)] none = .error e1 →
      (get_content apiKey bs net code doc_type).2
          = [cv_query_request apiKey doc_type code, cv_path_request apiKey doc_type code] ∧
      (∀ data, get_json apiKey net (cs "") []
          (some (cs "CodeViewer/" ++ doc_type ++ cs "/" ++ code)) = .ok data →
        (get_content apiKey bs net code doc_type).1 = .ok (flattenViewer bs data)) ∧
      (∀ e2, get_json apiKey net (cs "") []
          (some (cs "CodeViewer/" ++ doc_type ++ cs "/" ++ code)) = .error e2 →
        (get_content apiKey bs net code doc_type).1 = .error e2)) := by
  refine ⟨⟨rfl, rfl⟩, ⟨?_, rfl⟩, ?_, ?_⟩
  · show base_url ++ cs "/" ++ (cs "CodeViewer/" ++ doc_type ++ cs "/" ++ code) = _
    simp only [List.append_assoc]
    rw [← List.append_assoc (cs "/") (cs "CodeViewer/"),
      show cs "/" ++ cs "CodeViewer/" = cs "/CodeViewer/" from by decide]
  · intro data h
    simp only [get_content, h]
  · intro e1 h1
    refine ⟨?_, ?_, ?_⟩
    · simp only [get_content, h1]
      cases h2 : get_json apiKey net (cs "") []
          (some (cs "CodeViewer/" ++ doc_type ++ cs "/" ++ code)) <;> rfl
    · intro data h2
      simp only [get_content, h1, h2]
    · intro e2 h2
      simp only [get_content, h1, h2]

/-- Witness for `content_retry`: a transport oracle that always fails makes
`get_content` issue both request shapes and propagate the second error. -/
theorem content_retry_witness :
    (get_content (cs "K") (fun s => s) (fun _ => NetOut.fail) (cs "C1") (cs "KCS")).2
      = [cv_query_request (cs "K") (cs "KCS") (cs "C1"),
         cv_path_request (cs "K") (cs "KCS") (cs "C1")] ∧
    (get_content (cs "K") (fun s => s) (fun _ => NetOut.fail) (cs "C1") (cs "KCS")).1
      = .error .transport := by
  have h := (content_retry (cs "K") (cs "KCS") (cs "C1") (fun s => s)
    (fun _ => NetOut.fail)).2.2.2 FetchErr.transport rfl
  exact ⟨h.1, h.2.2 FetchErr.transport rfl⟩

/-! ### C9: the concrete two-section flattening example -/

/-- The titled section of end-to-end example 4. -/
def scopeSec : Item :=
  [(cs "Title", some (cs "Scope")), (cs "Contents", some (cs "<p>Applies to X</p>"))]

/-- The untitled section of end-to-end example 4. -/
def plainSec : Item := [(cs "Contents", some (cs "Plain text"))]

/-- The content response of end-to-end example 4. -/
def exampleViewerResp : ViewerResp := .vobj [(cs "List", VVal.vsecs [scopeSec, plainSec])]

/-- C9: for the response with a titled section `"Scope"` whose body is
`<p>Applies to X</p>` and an untitled section with plain body `"Plain text"`,
the flattened text is exactly `"## Scope\nApplies to X\n\nPlain text"` —
`## `-heading plus stripped body for the titled section, stripped body alone
for the untitled one, non-empty parts joined by a blank line — for every
HTML-to-text capability `bs` that strips the example markup as stated, and
`get_content` delivers exactly this flattening on a successful fetch. -/
theorem flatten_example (bs : List Char → List Char)
    (hbs : bs (cs "<p>Applies to X</p>") = cs "Applies to X") :
    (flattenViewer bs exampleViewerResp).2 = cs "## Scope\nApplies to X\n\nPlain text" ∧
    (∀ (apiKey : List Char) (net : Request → NetOut ViewerResp),
      get_json apiKey net (cs "CodeViewer") [(cs "Type", cs "KCS"), (cs "Code", cs "C1")] none
        = .ok exampleViewerResp →
      (get_content apiKey bs net (cs "C1") (cs "KCS")).1
        = .ok (flattenViewer bs exampleViewerResp)) := by
  constructor
  · have e0 : (flattenViewer bs exampleViewerResp).2
        = joinParts [sectionPart bs scopeSec, sectionPart bs plainSec] := rfl
    have e1 : sectionPart bs scopeSec
        = pyStrip (cs "## " ++ cs "Scope" ++ cs "\n" ++ bs (cs "<p>Applies to X</p>")) := rfl
    have e2 : sectionPart bs plainSec = cs "Plain text" := rfl
    rw [e0, e1, hbs, e2]
    decide
  · intro apiKey net h
    simp only [get_content, h]

/-- Witness for `flatten_example` with the concrete stripping capability. -/
theorem flatten_example_witness :
    (flattenViewer (fun _ => cs "Applies to X") exampleViewerResp).2
      = cs "## Scope\nApplies to X\n\nPlain text" :=
  (flatten_example (fun _ => cs "Applies to X") rfl).1

/-! ### C6: redaction -/

theorem occursIn_append_of_disjoint {key m rest : List Char} (hk : key ≠ [])
    (hd : ∀ c ∈ key, c ∉ m) (hr : occursIn key rest = false) :
    occursIn key (m ++ rest) = false := by
  induction m with
  | nil => simpa using hr
  | cons c ms ih =>
    have ih2 := ih (fun x hx hm => hd x hx (List.mem_cons_of_mem c hm))
    rcases key with _ | ⟨k0, ks⟩
    · exact absurd rfl hk
    · have hne : (k0 == c) = false := by
        have : k0 ∉ c :: ms := hd k0 (List.mem_cons_self k0 ks)
        simp only [List.mem_cons, not_or] at this
        simp [this.1]
      simp only [List.cons_append, occursIn, List.isPrefixOf, hne, Bool.false_and,
        Bool.false_or]
      exact ih2

theorem isPrefixOf_replace_of_not {key M : List Char} (hM : M ≠ [])
    (hd : ∀ c ∈ key, c ∉ M) :
    ∀ (f : ℕ) (t p : List Char), t.length ≤ f → p ≠ [] → (∀ c ∈ p, c ∈ key) →
      p.isPrefixOf t = false → p.isPrefixOf (pyReplaceAux key M f t) = false := by
  intro f
  induction f with
  | zero =>
    intro t p hlen hp _ hpt
    interval_cases ht : t.length
    · have : t = [] := List.length_eq_zero.mp ht
      subst this
      simpa [pyReplaceAux] using hpt
  | succ f ih =>
    intro t p hlen hp hsub hpt
    rcases t with _ | ⟨c, t1⟩
    · simpa [pyReplaceAux] using hpt
    · rcases p with _ | ⟨p0, ps⟩
      · exact absurd rfl hp
      · simp only [pyReplaceAux]
        by_cases hbr : (!key.isEmpty && key.isPrefixOf (c :: t1)) = true
        · rw [if_pos hbr]
          rcases M with _ | ⟨m0, ms⟩
          · exact absurd rfl hM
          · have hne : (p0 == m0) = false := by
              have h1 : p0 ∉ m0 :: ms := hd p0 (hsub p0 (List.mem_cons_self p0 ps))
              simp only [List.mem_cons, not_or] at h1
              simp [h1.1]
            simp [List.isPrefixOf, hne]
        · rw [if_neg hbr]
          by_cases hc : (p0 == c) = true
          · have hps : ps.isPrefixOf t1 = false := by
              simpa [List.isPrefixOf, hc] using hpt
            have hpsne : ps ≠ [] := by
              intro h0
              rw [h0] at hps
              simp [List.isPrefixOf] at hps
            have := ih t1 ps (by simpa using Nat.le_of_succ_le_succ hlen) hpsne
              (fun x hx => hsub x (List.mem_cons_of_mem p0 hx)) hps
            simp [List.isPrefixOf, this]
          · simp only [Bool.not_eq_true] at hc
            simp [List.isPrefixOf, hc]

theorem occursIn_replace_eq_false {key M : List Char} (hk : key ≠ []) (hM : M ≠ [])
    (hd : ∀ c ∈ key, c ∉ M) :
    ∀ (f : ℕ) (t : List Char), t.length ≤ f →
      occursIn key (pyReplaceAux key M f t) = false := by
  intro f
  induction f with
  | zero =>
    intro t hlen
    have : t = [] := List.length_eq_zero.mp (Nat.le_zero.mp hlen)
    subst this
    simp [pyReplaceAux, occursIn, hk]
  | succ f ih =>
    intro t hlen
    rcases t with _ | ⟨c, t1⟩
    · simp [pyReplaceAux, occursIn, hk]
    · simp only [pyReplaceAux]
      by_cases hbr : (!key.isEmpty && key.isPrefixOf (c :: t1)) = true
      · rw [if_pos hbr]
        refine occursIn_append_of_disjoint hk hd (ih _ ?_)
        calc (t1.drop (key.length - 1)).length ≤ t1.length := by
              simp [List.length_drop]
          _ ≤ f := Nat.le_of_succ_le_succ hlen
      · rw [if_neg hbr]
        have hw := ih t1 (Nat.le_of_succ_le_succ hlen)
        rcases key with _ | ⟨k0, ks⟩
        · exact absurd rfl hk
        · have hnp : List.isPrefixOf (k0 :: ks) (c :: t1) = false := by
            rcases Bool.and_eq_false_iff.mp (Bool.eq_false_iff.mpr hbr) with h | h
            · simp at h
            · exact h
          simp only [occursIn, hw, Bool.or_false]
          by_cases hc : (k0 == c) = true
          · have hks : ks.isPrefixOf t1 = false := by
              simpa [List.isPrefixOf, hc] using hnp
            have hksne : ks ≠ [] := by
              intro h0
              rw [h0] at hks
              simp [List.isPrefixOf] at hks
            have := isPrefixOf_replace_of_not hM hd f t1 ks
              (Nat.le_of_succ_le_succ hlen) hksne
              (fun x hx => List.mem_cons_of_mem k0 hx) hks
            simp [List.isPrefixOf, this]
          · simp only [Bool.not_eq_true] at hc
            simp [List.isPrefixOf, hc]

/-- C6 (amended): for every diagnostic text and every non-empty credential
that shares no character with the marker `***REDACTED***`, the redacted
output contains zero occurrences of the credential.  (The character
condition is necessary: see `redact_key_cex` — a credential overlapping the
marker reappears inside the inserted markers.) -/
theorem redact_no_occurrence (text key : List Char) (hk : key ≠ [])
    (hd : ∀ c ∈ key, c ∉ redact_marker) :
    occursIn key (redact_key text key) = false := by
  unfold redact_key
  rw [if_neg (by simp [hk])]
  exact occursIn_replace_eq_false hk (by decide) hd text.length text le_rfl

/-- C6 counterexample: with credential `"RED"` the redacted output is the
marker itself, which still contains `"RED"` — the claim as stated is false. -/
theorem redact_key_cex :
    occursIn (cs "RED") (redact_key (cs "RED") (cs "RED")) = true := by decide

/-- Witness for `redact_no_occurrence` at a concrete text and credential. -/
theorem redact_no_occurrence_witness :
    occursIn (cs "xyz19") (redact_key (cs "url?key=xyz19&q=xyz19") (cs "xyz19")) = false :=
  redact_no_occurrence (cs "url?key=xyz19&q=xyz19") (cs "xyz19")
    (by decide) (by decide)

/-! ### Stable descending sort: membership, sortedness, stability -/

theorem mem_insertDescBy {α β : Type} [LinearOrder β] (f : α → β) (x z : α)
    (l : List α) : z ∈ insertDescBy f x l ↔ z = x ∨ z ∈ l := by
  induction l with
  | nil => simp [insertDescBy]
  | cons y ys ih =>
    simp only [insertDescBy]
    split
    · simp only [List.mem_cons, ih]
      tauto
    · simp only [List.mem_cons]

theorem mem_sortDescBy {α β : Type} [LinearOrder β] (f : α → β) (z : α)
    (l : List α) : z ∈ sortDescBy f l ↔ z ∈ l := by
  induction l with
  | nil => simp [sortDescBy]
  | cons x xs ih => simp [sortDescBy, mem_insertDescBy, ih]

theorem sorted_insertDescBy {α β : Type} [LinearOrder β] (f : α → β) (x : α)
    (l : List α) (hl : l.Pairwise (fun a b => f b ≤ f a)) :
    (insertDescBy f x l).Pairwise (fun a b => f b ≤ f a) := by
  induction l with
  | nil => simp [insertDescBy]
  | cons y ys ih =>
    rcases List.pairwise_cons.mp hl with ⟨hy, hys⟩
    simp only [insertDescBy]
    split
    · rename_i hlt
      refine List.pairwise_cons.mpr ⟨?_, ih hys⟩
      intro z hz
      rcases (mem_insertDescBy f x z ys).mp hz with rfl | hz2
      · exact le_of_lt hlt
      · exact hy z hz2
    · rename_i hnlt
      push_neg at hnlt
      refine List.pairwise_cons.mpr ⟨?_, hl⟩
      intro z hz
      rcases List.mem_cons.mp hz with rfl | hz2
      · exact hnlt
      · exact le_trans (hy z hz2) hnlt

theorem sorted_sortDescBy {α β : Type} [LinearOrder β] (f : α → β) (l : List α) :
    (sortDescBy f l).Pairwise (fun a b => f b ≤ f a) := by
  induction l with
  | nil => simp [sortDescBy]
  | cons x xs ih => exact sorted_insertDescBy f x _ ih

theorem filter_insertDescBy {α β : Type} [LinearOrder β] (f : α → β) (x : α)
    (l : List α) (c : β) :
    (insertDescBy f x l).filter (fun z => decide (f z = c))
      = if f x = c then x :: l.filter (fun z => decide (f z = c))
        else l.filter (fun z => decide (f z = c)) := by
  induction l with
  | nil =>
    by_cases hx : f x = c <;> simp [insertDescBy, List.filter, hx]
  | cons y ys ih =>
    simp only [insertDescBy]
    split
    · rename_i hlt
      by_cases hyc : f y = c
      · have hxc : f x ≠ c := by
          intro h
          rw [h, hyc] at hlt
          exact lt_irrefl _ hlt
        simp [List.filter_cons, hyc, hxc, ih]
      · simp [List.filter_cons, hyc, ih]
    · by_cases hxc : f x = c <;> by_cases hyc : f y = c <;>
        simp [List.filter_cons, hxc, hyc]

theorem filter_sortDescBy {α β : Type} [LinearOrder β] (f : α → β)
    (l : List α) (c : β) :
    (sortDescBy f l).filter (fun z => decide (f z = c))
      = l.filter (fun z => decide (f z = c)) := by
  induction l with
  | nil => rfl
  | cons x xs ih =>
    simp only [sortDescBy, filter_insertDescBy, ih]
    by_cases hxc : f x = c <;> simp [List.filter_cons, hxc]

/-! ### C3: stability and determinism of the primary ranking -/

/-- C3: the descending-score sort is stable — for every score value `c`, the
entries of score `c` appear in the sorted list exactly in their catalog
order (the two filters coincide); the same holds through the positive-score
filter producing the ranked list; and the ranked list is a pure function of
the catalog and token set (re-running on unmodified inputs yields the
identical order). -/
theorem primary_sort_stable (items : List Item) (tokens : List (List Char)) (c : ℕ) :
    ((sortDescBy (score_contains tokens) items).filter
        (fun it => decide (score_contains tokens it = c))
      = items.filter (fun it => decide (score_contains tokens it = c))) ∧
    ((rankedPrimary tokens items).filter (fun it => decide (score_contains tokens it = c))
      = if c = 0 then []
        else items.filter (fun it => decide (score_contains tokens it = c))) ∧
    (∀ items2 tokens2, items2 = items → tokens2 = tokens →
      rankedPrimary tokens2 items2 = rankedPrimary tokens items) := by
  refine ⟨filter_sortDescBy _ items c, ?_, ?_⟩
  · unfold rankedPrimary
    rw [List.filter_filter]
    by_cases hc : c = 0
    · subst hc
      rw [if_pos rfl, List.filter_eq_nil]
      intro it _
      simp only [Bool.and_eq_true, decide_eq_true_eq, not_and]
      intro h1 h2
      omega
    · rw [if_neg hc]
      have : (sortDescBy (score_contains tokens) items).filter
          (fun it => decide (score_contains tokens it = c) &&
            decide (0 < score_contains tokens it))
          = (sortDescBy (score_contains tokens) items).filter
            (fun it => decide (score_contains tokens it = c)) := by
        apply List.filter_congr
        intro it _
        by_cases hit : score_contains tokens it = c
        · simp [hit, Nat.pos_of_ne_zero hc]
        · simp [hit]
      rw [this, filter_sortDescBy]
  · intro items2 tokens2 h1 h2
    rw [h1, h2]

/-- Witness for `primary_sort_stable`: the filter equation and the
determinism conjunct at a concrete two-entry catalog with a score tie. -/
theorem primary_sort_stable_witness :
    ((sortDescBy (score_contains [cs "ab"])
        [[(cs "Name", some (cs "xaby")), (cs "Code", some (cs "A1"))],
         [(cs "Name", some (cs "abzz")), (cs "Code", some (cs "A2"))]]).filter
        (fun it => decide (score_contains [cs "ab"] it = 10))
      = [[(cs "Name", some (cs "xaby")), (cs "Code", some (cs "A1"))],
         [(cs "Name", some (cs "abzz")), (cs "Code", some (cs "A2"))]].filter
          (fun it => decide (score_contains [cs "ab"] it = 10))) ∧
    rankedPrimary [cs "ab"]
        [[(cs "Name", some (cs "xaby")), (cs "Code", some (cs "A1"))],
         [(cs "Name", some (cs "abzz")), (cs "Code", some (cs "A2"))]]
      = rankedPrimary [cs "ab"]
        [[(cs "Name", some (cs "xaby")), (cs "Code", some (cs "A1"))],
         [(cs "Name", some (cs "abzz")), (cs "Code", some (cs "A2"))]] :=
  ⟨(primary_sort_stable _ [cs "ab"] 10).1,
   (primary_sort_stable _ [cs "ab"] 10).2.2 _ _ rfl rfl⟩

/-! ### C2: the fallback trigger -/

theorem rankedPrimary_eq_nil_iff (tokens : List (List Char)) (items : List Item) :
    rankedPrimary tokens items = [] ↔ ∀ it ∈ items, score_contains tokens it = 0 := by
  unfold rankedPrimary
  rw [List.filter_eq_nil]
  constructor
  · intro h it hit
    have := h it ((mem_sortDescBy _ it items).mpr hit)
    simpa using this
  · intro h it hit
    have := h it ((mem_sortDescBy _ it items).mp hit)
    simp [this]

/-- C2: the fallback similarity pass runs exactly when the primary pass
yields zero positively scored entries, never otherwise; the fallback key is
the separator-free concatenation of the normalized tokens (or the raw
keyword when the token set is empty); and the fallback output keeps exactly
the entries of ratio at least `0.20`, in descending-ratio order. -/
theorem fallback_trigger (items : List Item) (keyword : List Char) :
    ((∃ it ∈ items, 0 < score_contains (normalize_tokens keyword) it) →
      rankedOf items keyword = rankedPrimary (normalize_tokens keyword) items) ∧
    ((∀ it ∈ items, score_contains (normalize_tokens keyword) it = 0) →
      rankedOf items keyword
        = rankedFallback (fallbackKey (normalize_tokens keyword) keyword) items) ∧
    (fallbackKey (normalize_tokens keyword) keyword
      = if (normalize_tokens keyword).isEmpty then keyword
        else (normalize_tokens keyword).flatten) ∧
    (∀ it ∈ rankedFallback (fallbackKey (normalize_tokens keyword) keyword) items,
      (1 : ℚ)/5 ≤ fuzz_ratio (fallbackKey (normalize_tokens keyword) keyword) it) ∧
    ((rankedFallback (fallbackKey (normalize_tokens keyword) keyword) items).Pairwise
      (fun x y => fuzz_ratio (fallbackKey (normalize_tokens keyword) keyword) y
        ≤ fuzz_ratio (fallbackKey (normalize_tokens keyword) keyword) x)) := by
  refine ⟨?_, ?_, rfl, ?_, ?_⟩
  · rintro ⟨it, hit, hpos⟩
    have hne : rankedPrimary (normalize_tokens keyword) items ≠ [] := by
      intro h
      have := (rankedPrimary_eq_nil_iff _ items).mp h it hit
      omega
    unfold rankedOf
    rw [if_neg (by simpa [List.isEmpty_iff] using hne)]
  · intro hall
    have hnil : rankedPrimary (normalize_tokens keyword) items = [] :=
      (rankedPrimary_eq_nil_iff _ items).mpr hall
    unfold rankedOf
    rw [if_pos (by simpa [List.isEmpty_iff] using hnil)]
  · intro it hit
    unfold rankedFallback at hit
    have := (List.mem_filter.mp hit).2
    simpa using this
  · unfold rankedFallback
    exact (sorted_sortDescBy _ items).sublist (List.filter_sublist _)

/-- Witness for `fallback_trigger`: a concrete catalog where no token
matches, so the fallback list is returned. -/
theorem fallback_trigger_witness :
    rankedOf [[(cs "Name", some (cs "zz")), (cs "Code", some (cs "A1"))]] (cs "qq")
      = rankedFallback
          (fallbackKey (normalize_tokens (cs "qq")) (cs "qq"))
          [[(cs "Name", some (cs "zz")), (cs "Code", some (cs "A1"))]] :=
  (fallback_trigger [[(cs "Name", some (cs "zz")), (cs "Code", some (cs "A1"))]]
    (cs "qq")).2.1 (by decide)

/-! ### C1: the post-filter -/

theorem mem_collect_clean (top_k : ℕ) :
    ∀ (l acc : List Item) (it : Item), it ∈ collect_clean top_k acc l →
      it ∈ acc ∨ (it ∈ l ∧ (pyStrip (get_code it)).isEmpty = false) := by
  intro l
  induction l with
  | nil =>
    intro acc it h
    exact Or.inl h
  | cons x rest ih =>
    intro acc it h
    simp only [collect_clean] at h
    have hmem : ∀ acc1 : List Item,
        acc1 = (if (!(pyStrip (get_code x)).isEmpty) = true then acc ++ [x] else acc) →
        it ∈ acc1 →
        it ∈ acc ∨ (it ∈ x :: rest ∧ (pyStrip (get_code it)).isEmpty = false) := by
      intro acc1 hacc1 hin
      by_cases hc : (!(pyStrip (get_code x)).isEmpty) = true
      · rw [hacc1, if_pos hc] at hin
        rcases List.mem_append.mp hin with h1 | h1
        · exact Or.inl h1
        · have hx := List.mem_singleton.mp h1
          subst hx
          refine Or.inr ⟨List.mem_cons_self _ _, ?_⟩
          simpa using hc
      · rw [hacc1, if_neg hc] at hin
        exact Or.inl hin
    by_cases houter : top_k ≤
        (if (!(pyStrip (get_code x)).isEmpty) = true then acc ++ [x] else acc).length
    · rw [if_pos houter] at h
      exact hmem _ rfl h
    · rw [if_neg houter] at h
      rcases ih _ it h with h1 | h1
      · exact hmem _ rfl h1
      · exact Or.inr ⟨List.mem_cons_of_mem x h1.1, h1.2⟩

theorem collect_clean_take (top_k : ℕ) (htk : 1 ≤ top_k) :
    ∀ (l acc : List Item), acc.length < top_k →
      collect_clean top_k acc l
        = acc ++ (l.filter (fun it => !(pyStrip (get_code it)).isEmpty)).take
            (top_k - acc.length) := by
  intro l
  induction l with
  | nil =>
    intro acc _
    simp [collect_clean]
  | cons x rest ih =>
    intro acc hlen
    simp only [collect_clean]
    by_cases hok : (!(pyStrip (get_code x)).isEmpty) = true
    · rw [if_pos hok]
      simp only [List.filter_cons, hok, if_pos]
      by_cases hfull : top_k ≤ (acc ++ [x]).length
      · rw [if_pos hfull]
        have hk : top_k - acc.length = 1 := by
          simp only [List.length_append, List.length_singleton] at hfull
          omega
        rw [hk, List.take_succ_cons, List.take_zero]
      · rw [if_neg hfull]
        have hlen2 : (acc ++ [x]).length < top_k := by omega
        rw [ih (acc ++ [x]) hlen2]
        have hk : top_k - acc.length = (top_k - (acc ++ [x]).length) + 1 := by
          simp only [List.length_append, List.length_singleton]
          simp only [List.length_append, List.length_singleton] at hfull
          omega
        rw [hk, List.take_succ_cons, List.append_assoc, List.singleton_append]
    · rw [if_neg hok]
      have hlt : ¬ top_k ≤ acc.length := by omega
      rw [if_neg hlt]
      simp only [List.filter_cons, hok]
      exact ih acc hlen

/-- C1 (amended): an entry whose resolved identifier strips to the empty
string — in particular one whose identifier is empty or missing — is never
contained in the result of `search_codes_local`, for every catalog, keyword
and `top_k`; and for every `top_k ≥ 1` the post-filter equals "walk the
ranked list in order, keep the identifier-bearing entries, truncate at
`top_k`", so the result length is at most `top_k`.  (The `top_k ≥ 1` guard
is forced by `search_topk_zero_cex`: at `top_k = 0` the loop's break test
runs only after the first entry was examined and possibly appended.) -/
theorem search_post_filter (items : List Item) (keyword : List Char) (top_k : ℕ) :
    (∀ it ∈ search_codes_local items keyword top_k,
      (pyStrip (get_code it)).isEmpty = false) ∧
    (1 ≤ top_k →
      search_codes_local items keyword top_k
        = ((rankedOf items keyword).filter
            (fun it => !(pyStrip (get_code it)).isEmpty)).take top_k) ∧
    (1 ≤ top_k → (search_codes_local items keyword top_k).length ≤ top_k) := by
  have heq : ∀ h : 1 ≤ top_k,
      search_codes_local items keyword top_k
        = ((rankedOf items keyword).filter
            (fun it => !(pyStrip (get_code it)).isEmpty)).take top_k := by
    intro h
    unfold search_codes_local
    rw [collect_clean_take top_k h (rankedOf items keyword) [] (by simpa using h)]
    simp
  refine ⟨?_, heq, ?_⟩
  · intro it hit
    rcases mem_collect_clean top_k (rankedOf items keyword) [] it hit with h1 | h1
    · simp at h1
    · exact h1.2
  · intro h
    rw [heq h]
    calc (((rankedOf items keyword).filter _).take top_k).length
        ≤ top_k := by rw [List.length_take]; omega

/-- C1 counterexample: at `top_k = 0`, a catalog whose best entry has a
usable code yields a one-element result — the claimed bound
`length ≤ top_k` fails. -/
theorem search_topk_zero_cex :
    ¬ ((search_codes_local
        [[(cs "Name", some (cs "ab")), (cs "Code", some (cs "A1"))]]
        (cs "ab") 0).length ≤ 0) := by decide

/-- Witness for `search_post_filter` at a concrete catalog and `top_k = 3`. -/
theorem search_post_filter_witness :
    search_codes_local [[(cs "Name", some (cs "ab")), (cs "Code", some (cs "A1"))]]
        (cs "ab") 3
      = ((rankedOf [[(cs "Name", some (cs "ab")), (cs "Code", some (cs "A1"))]]
          (cs "ab")).filter (fun it => !(pyStrip (get_code it)).isEmpty)).take 3 :=
  (search_post_filter [[(cs "Name", some (cs "ab")), (cs "Code", some (cs "A1"))]]
    (cs "ab") 3).2.1 (by decide)

/-! ### C10: returned entries have resolvable names -/

/-- C10: an entry whose name probe yields the empty string scores 0 in the
primary pass and ratio 0.0 in the fallback pass; consequently every entry of
the ranked list — and a fortiori of the search result — has a non-empty
resolved name. -/
theorem search_name_nonempty (items : List Item) (keyword : List Char) (top_k : ℕ) :
    (∀ it : Item, get_name it = [] →
      score_contains (normalize_tokens keyword) it = 0 ∧
      fuzz_ratio (fallbackKey (normalize_tokens keyword) keyword) it = 0) ∧
    (∀ it ∈ rankedOf items keyword, get_name it ≠ []) ∧
    (∀ it ∈ search_codes_local items keyword top_k, get_name it ≠ []) := by
  have hzero : ∀ (it : Item), get_name it = [] →
      score_contains (normalize_tokens keyword) it = 0 ∧
      fuzz_ratio (fallbackKey (normalize_tokens keyword) keyword) it = 0 := by
    intro it h
    constructor
    · unfold score_contains
      rw [h]
      rfl
    · unfold fuzz_ratio
      rw [h]
      rfl
  have hranked : ∀ it ∈ rankedOf items keyword, get_name it ≠ [] := by
    intro it hit hname
    simp only [rankedOf] at hit
    split at hit
    · unfold rankedFallback at hit
      have h2 := (List.mem_filter.mp hit).2
      simp only [decide_eq_true_eq] at h2
      rw [(hzero it hname).2] at h2
      norm_num at h2
    · unfold rankedPrimary at hit
      have h2 := (List.mem_filter.mp hit).2
      simp only [decide_eq_true_eq] at h2
      rw [(hzero it hname).1] at h2
      omega
  refine ⟨hzero, hranked, ?_⟩
  intro it hit
  rcases mem_collect_clean top_k (rankedOf items keyword) [] it hit with h1 | h1
  · simp at h1
  · exact hranked it h1.1

/-- Witness for `search_name_nonempty`: the returned entry of a concrete
search has a non-empty resolved name. -/
theorem search_name_nonempty_witness :
    get_name [(cs "Name", some (cs "ab")), (cs "Code", some (cs "A1"))] ≠ [] :=
  (search_name_nonempty [[(cs "Name", some (cs "ab")), (cs "Code", some (cs "A1"))]]
    (cs "ab") 3).2.2 _ (by decide)

/-! ### C7: bounds of `find_longest_match` and the ratio range

The scan invariants: `JInv` bounds the `j2len` row map (an entry at `j` is
the length of a match ending at column `j` of the row about to be processed,
so it cannot exceed the rows consumed so far nor the columns available since
`blo`), and `BInv` says a best candidate block lies inside the rectangle
`[alo, ahi) × [blo, bhi)`. -/

/-- Row-map invariant before processing row `i`. -/
def JInv (alo blo bhi i : ℕ) (m : ℕ → ℕ) : Prop :=
  ∀ j, m j ≠ 0 → m j + alo ≤ i ∧ m j + blo ≤ j + 1 ∧ blo ≤ j ∧ j < bhi

/-- The candidate block lies inside the search rectangle. -/
def BInv (alo ahi blo bhi : ℕ) (s : SMBest) : Prop :=
  alo ≤ s.i ∧ blo ≤ s.j ∧ s.i + s.size ≤ ahi ∧ s.j + s.size ≤ bhi

theorem scanCell_inv (alo ahi blo bhi i : ℕ) (jold : ℕ → ℕ)
    (acc : (ℕ → ℕ) × SMBest) (j : ℕ)
    (hrow : alo ≤ i) (hi : i < ahi) (hj1 : blo ≤ j) (hj2 : j < bhi)
    (hJ : JInv alo blo bhi i jold) (hacc1 : JInv alo blo bhi (i + 1) acc.1)
    (hacc2 : BInv alo ahi blo bhi acc.2) :
    JInv alo blo bhi (i + 1) (scanCell jold i acc j).1 ∧
    BInv alo ahi blo bhi (scanCell jold i acc j).2 := by
  have hk1 : (if j = 0 then 0 else jold (j - 1)) + 1 + alo ≤ i + 1 := by
    split
    · omega
    · rename_i hj0
      by_cases hz : jold (j - 1) = 0
      · rw [hz]; omega
      · have := (hJ (j - 1) hz).1; omega
  have hk2 : (if j = 0 then 0 else jold (j - 1)) + 1 + blo ≤ j + 1 := by
    split
    · rename_i hj0
      subst hj0
      omega
    · rename_i hj0
      by_cases hz : jold (j - 1) = 0
      · rw [hz]; omega
      · have := (hJ (j - 1) hz).2.1; omega
  constructor
  · intro j2 hne
    simp only [scanCell] at hne ⊢
    by_cases hjj : j2 = j
    · subst hjj
      simp only [if_pos rfl]
      exact ⟨hk1, hk2, hj1, hj2⟩
    · simp only [if_neg hjj] at hne ⊢
      exact hacc1 j2 hne
  · have hgen : ∀ K : ℕ, K + alo ≤ i + 1 → K + blo ≤ j + 1 →
        BInv alo ahi blo bhi
          (if acc.2.size < K then ⟨i + 1 - K, j + 1 - K, K⟩ else acc.2) := by
      intro K hK1 hK2
      split
      · refine ⟨?_, ?_, ?_, ?_⟩
        · show alo ≤ i + 1 - K
          omega
        · show blo ≤ j + 1 - K
          omega
        · show i + 1 - K + K ≤ ahi
          omega
        · show j + 1 - K + K ≤ bhi
          omega
      · exact hacc2
    exact hgen _ hk1 hk2

theorem foldCells_inv (alo ahi blo bhi i : ℕ) (jold : ℕ → ℕ)
    (hrow : alo ≤ i) (hi : i < ahi) (hJ : JInv alo blo bhi i jold) :
    ∀ (js : List ℕ) (acc : (ℕ → ℕ) × SMBest),
      (∀ j ∈ js, blo ≤ j ∧ j < bhi) →
      JInv alo blo bhi (i + 1) acc.1 → BInv alo ahi blo bhi acc.2 →
      JInv alo blo bhi (i + 1) (js.foldl (scanCell jold i) acc).1 ∧
      BInv alo ahi blo bhi (js.foldl (scanCell jold i) acc).2 := by
  intro js
  induction js with
  | nil =>
    intro acc _ h1 h2
    exact ⟨h1, h2⟩
  | cons j js ih =>
    intro acc hmem h1 h2
    simp only [List.foldl_cons]
    have hj := hmem j (List.mem_cons_self _ _)
    have hc := scanCell_inv alo ahi blo bhi i jold acc j hrow hi hj.1 hj.2 hJ h1 h2
    exact ih _ (fun x hx => hmem x (List.mem_cons_of_mem _ hx)) hc.1 hc.2

theorem scanRow_inv (a b : List Char) (alo ahi blo bhi i : ℕ)
    (st : (ℕ → ℕ) × SMBest) (hrow : alo ≤ i) (hi : i < ahi)
    (hJ : JInv alo blo bhi i st.1) (hB : BInv alo ahi blo bhi st.2) :
    JInv alo blo bhi (i + 1) (scanRow a b blo bhi st i).1 ∧
    BInv alo ahi blo bhi (scanRow a b blo bhi st i).2 := by
  unfold scanRow
  refine foldCells_inv alo ahi blo bhi i st.1 hrow hi hJ _ _ ?_ ?_ hB
  · intro j hjmem
    have hm := (List.mem_filter.mp hjmem).2
    simp only [Bool.and_eq_true, decide_eq_true_eq] at hm
    exact hm
  · intro j2 hne
    exact absurd rfl hne

theorem foldRows_inv (a b : List Char) (alo ahi blo bhi : ℕ) :
    ∀ (n s : ℕ) (st : (ℕ → ℕ) × SMBest), alo ≤ s → s + n ≤ ahi →
      JInv alo blo bhi s st.1 → BInv alo ahi blo bhi st.2 →
      JInv alo blo bhi (s + n) ((List.range' s n).foldl (scanRow a b blo bhi) st).1 ∧
      BInv alo ahi blo bhi ((List.range' s n).foldl (scanRow a b blo bhi) st).2 := by
  intro n
  induction n with
  | zero =>
    intro s st _ _ h1 h2
    exact ⟨h1, h2⟩
  | succ n ih =>
    intro s st hs hsn h1 h2
    rw [List.range'_succ]
    simp only [List.foldl_cons]
    have hrow := scanRow_inv a b alo ahi blo bhi s st hs (by omega) h1 h2
    have hrest := ih (s + 1) _ (by omega) (by omega) hrow.1 hrow.2
    have heq : s + (n + 1) = (s + 1) + n := by omega
    rw [heq]
    exact hrest

theorem scanAll_BInv (a b : List Char) (alo ahi blo bhi : ℕ)
    (h1 : alo ≤ ahi) (h2 : blo ≤ bhi) :
    BInv alo ahi blo bhi (scanAll a b alo ahi blo bhi) := by
  unfold scanAll
  have hfold := foldRows_inv a b alo ahi blo bhi (ahi - alo) alo
    ((fun _ => 0), ⟨alo, blo, 0⟩) le_rfl (by omega)
    (fun j2 hne => absurd rfl hne) ⟨le_rfl, le_rfl, by simpa using h1, by simpa using h2⟩
  exact hfold.2

theorem extendBack_BInv (a b : List Char) (alo ahi blo bhi : ℕ) :
    ∀ (i j k : ℕ), BInv alo ahi blo bhi ⟨i, j, k⟩ →
      BInv alo ahi blo bhi (extendBack a b alo blo i j k) := by
  intro i
  induction i with
  | zero =>
    intro j k h
    exact h
  | succ i ih =>
    intro j k h
    have h2 : alo ≤ i + 1 ∧ blo ≤ j ∧ i + 1 + k ≤ ahi ∧ j + k ≤ bhi := h
    obtain ⟨hb1, hb2, hb3, hb4⟩ := h2
    simp only [extendBack]
    split
    · rename_i hc
      obtain ⟨hc1, hc2, _⟩ := hc
      refine ih _ _ ⟨hc1, ?_, ?_, ?_⟩
      · show blo ≤ j - 1
        omega
      · show i + (k + 1) ≤ ahi
        omega
      · show j - 1 + (k + 1) ≤ bhi
        omega
    · exact h

theorem extendFwdAux_le (a b : List Char) (ahi bhi i j : ℕ) :
    ∀ (f k : ℕ), i + k ≤ ahi → j + k ≤ bhi →
      k ≤ extendFwdAux a b ahi bhi i j f k ∧
      i + extendFwdAux a b ahi bhi i j f k ≤ ahi ∧
      j + extendFwdAux a b ahi bhi i j f k ≤ bhi := by
  intro f
  induction f with
  | zero =>
    intro k h1 h2
    exact ⟨le_rfl, h1, h2⟩
  | succ f ih =>
    intro k h1 h2
    simp only [extendFwdAux]
    split
    · rename_i hc
      have hrec := ih (k + 1) (by omega) (by omega)
      exact ⟨by omega, hrec.2.1, hrec.2.2⟩
    · exact ⟨le_rfl, h1, h2⟩

theorem flm_BInv (a b : List Char) (alo ahi blo bhi : ℕ)
    (h1 : alo ≤ ahi) (h2 : blo ≤ bhi) :
    BInv alo ahi blo bhi (find_longest_match a b alo ahi blo bhi) := by
  have hs := scanAll_BInv a b alo ahi blo bhi h1 h2
  have hb := extendBack_BInv a b alo ahi blo bhi
    (scanAll a b alo ahi blo bhi).i (scanAll a b alo ahi blo bhi).j
    (scanAll a b alo ahi blo bhi).size hs
  have hf := extendFwdAux_le a b ahi bhi
    (extendBack a b alo blo (scanAll a b alo ahi blo bhi).i
      (scanAll a b alo ahi blo bhi).j (scanAll a b alo ahi blo bhi).size).i
    (extendBack a b alo blo (scanAll a b alo ahi blo bhi).i
      (scanAll a b alo ahi blo bhi).j (scanAll a b alo ahi blo bhi).size).j
    (ahi - ((extendBack a b alo blo (scanAll a b alo ahi blo bhi).i
        (scanAll a b alo ahi blo bhi).j (scanAll a b alo ahi blo bhi).size).i
      + (extendBack a b alo blo (scanAll a b alo ahi blo bhi).i
        (scanAll a b alo ahi blo bhi).j (scanAll a b alo ahi blo bhi).size).size))
    (extendBack a b alo blo (scanAll a b alo ahi blo bhi).i
      (scanAll a b alo ahi blo bhi).j (scanAll a b alo ahi blo bhi).size).size
    hb.2.2.1 hb.2.2.2
  exact ⟨hb.1, hb.2.1, hf.2.1, hf.2.2⟩

theorem extendBack_at_start (a b : List Char) (alo blo j k : ℕ) (hj : j ≤ blo) :
    extendBack a b alo blo alo j k = ⟨alo, j, k⟩ := by
  cases alo with
  | zero => rfl
  | succ a0 =>
    simp only [extendBack]
    rw [if_neg]
    rintro ⟨hc1, _, _⟩
    omega

theorem extendFwdAux_stop_right (a b : List Char) (ahi bhi i j : ℕ)
    (f k : ℕ) (hstop : ¬ j + k < bhi) :
    extendFwdAux a b ahi bhi i j f k = k := by
  cases f with
  | zero => rfl
  | succ f =>
    simp only [extendFwdAux]
    rw [if_neg]
    rintro ⟨_, hc2, _⟩
    exact hstop hc2

theorem flm_degenerate_rows (a b : List Char) (alo ahi blo bhi : ℕ)
    (hd : ahi ≤ alo) :
    find_longest_match a b alo ahi blo bhi = ⟨alo, blo, 0⟩ := by
  have hr : ahi - alo = 0 := by omega
  unfold find_longest_match scanAll
  rw [hr]
  simp only [List.range'_zero, List.foldl_nil]
  rw [extendBack_at_start a b alo blo blo 0 le_rfl]
  unfold extendFwd
  have hfuel : ahi - (alo + 0) = 0 := by omega
  rw [hfuel]
  rfl

theorem foldRows_best_of_no_cols (a b : List Char) (blo bhi : ℕ)
    (hd : bhi ≤ blo) :
    ∀ (rows : List ℕ) (st : (ℕ → ℕ) × SMBest),
      ((rows.foldl (scanRow a b blo bhi) st).2) = st.2 := by
  intro rows
  induction rows with
  | nil =>
    intro st
    rfl
  | cons i rows ih =>
    intro st
    simp only [List.foldl_cons]
    rw [ih]
    unfold scanRow
    have hfil : ((b2j b (a.getD i ' ')).filter
        (fun j => decide (blo ≤ j) && decide (j < bhi))) = [] := by
      rw [List.filter_eq_nil]
      intro j _
      simp only [Bool.and_eq_true, decide_eq_true_eq, not_and]
      intro hj1 hj2
      omega
    rw [hfil]
    rfl

theorem flm_degenerate_cols (a b : List Char) (alo ahi blo bhi : ℕ)
    (hd : bhi ≤ blo) :
    (find_longest_match a b alo ahi blo bhi).size = 0 := by
  have hscan : scanAll a b alo ahi blo bhi = ⟨alo, blo, 0⟩ := by
    unfold scanAll
    rw [foldRows_best_of_no_cols a b blo bhi hd]
  have hs2 : extendBack a b alo blo alo blo 0 = ⟨alo, blo, 0⟩ :=
    extendBack_at_start a b alo blo blo 0 le_rfl
  unfold find_longest_match
  rw [hscan]
  show extendFwd a b ahi bhi (extendBack a b alo blo alo blo 0).i
      (extendBack a b alo blo alo blo 0).j (extendBack a b alo blo alo blo 0).size = 0
  rw [hs2]
  exact extendFwdAux_stop_right a b ahi bhi alo blo _ 0 (by omega)

theorem flm_size_bounds (a b : List Char) (alo ahi blo bhi : ℕ)
    (h : (find_longest_match a b alo ahi blo bhi).size ≠ 0) :
    alo ≤ (find_longest_match a b alo ahi blo bhi).i ∧
    blo ≤ (find_longest_match a b alo ahi blo bhi).j ∧
    (find_longest_match a b alo ahi blo bhi).i
      + (find_longest_match a b alo ahi blo bhi).size ≤ ahi ∧
    (find_longest_match a b alo ahi blo bhi).j
      + (find_longest_match a b alo ahi blo bhi).size ≤ bhi := by
  by_cases h1 : alo ≤ ahi
  · by_cases h2 : blo ≤ bhi
    · exact flm_BInv a b alo ahi blo bhi h1 h2
    · exact absurd (flm_degenerate_cols a b alo ahi blo bhi (by omega)) h
  · rw [flm_degenerate_rows a b alo ahi blo bhi (by omega)] at h
    exact absurd rfl h

theorem matchesFuel_le_left (a b : List Char) :
    ∀ (f alo ahi blo bhi : ℕ), matchesFuel a b f alo ahi blo bhi ≤ ahi - alo := by
  intro f
  induction f with
  | zero =>
    intro alo ahi blo bhi
    exact Nat.zero_le _
  | succ f ih =>
    intro alo ahi blo bhi
    simp only [matchesFuel]
    generalize hF : find_longest_match a b alo ahi blo bhi = s
    split
    · exact Nat.zero_le _
    · rename_i hs
      have hb := flm_size_bounds a b alo ahi blo bhi (by rw [hF]; exact hs)
      rw [hF] at hb
      obtain ⟨hb1, hb2, hb3, hb4⟩ := hb
      have hL : (if alo < s.i ∧ blo < s.j then
          matchesFuel a b f alo s.i blo s.j else 0) ≤ s.i - alo := by
        split
        · exact ih alo s.i blo s.j
        · exact Nat.zero_le _
      have hR : (if s.i + s.size < ahi ∧ s.j + s.size < bhi then
          matchesFuel a b f (s.i + s.size) ahi (s.j + s.size) bhi else 0)
          ≤ ahi - (s.i + s.size) := by
        split
        · exact ih (s.i + s.size) ahi (s.j + s.size) bhi
        · exact Nat.zero_le _
      omega

theorem matchesFuel_le_right (a b : List Char) :
    ∀ (f alo ahi blo bhi : ℕ), matchesFuel a b f alo ahi blo bhi ≤ bhi - blo := by
  intro f
  induction f with
  | zero =>
    intro alo ahi blo bhi
    exact Nat.zero_le _
  | succ f ih =>
    intro alo ahi blo bhi
    simp only [matchesFuel]
    generalize hF : find_longest_match a b alo ahi blo bhi = s
    split
    · exact Nat.zero_le _
    · rename_i hs
      have hb := flm_size_bounds a b alo ahi blo bhi (by rw [hF]; exact hs)
      rw [hF] at hb
      obtain ⟨hb1, hb2, hb3, hb4⟩ := hb
      have hL : (if alo < s.i ∧ blo < s.j then
          matchesFuel a b f alo s.i blo s.j else 0) ≤ s.j - blo := by
        split
        · exact ih alo s.i blo s.j
        · exact Nat.zero_le _
      have hR : (if s.i + s.size < ahi ∧ s.j + s.size < bhi then
          matchesFuel a b f (s.i + s.size) ahi (s.j + s.size) bhi else 0)
          ≤ bhi - (s.j + s.size) := by
        split
        · exact ih (s.i + s.size) ahi (s.j + s.size) bhi
        · exact Nat.zero_le _
      omega

/-- The fuel of `smMatches` is sufficient: any fuel exceeding the rectangle
perimeter computes the same value, so the fueled recursion agrees with the
unbounded recursion of `get_matching_blocks`. -/
theorem matchesFuel_congr (a b : List Char) :
    ∀ (f g alo ahi blo bhi : ℕ), (ahi - alo) + (bhi - blo) < f →
      (ahi - alo) + (bhi - blo) < g →
      matchesFuel a b f alo ahi blo bhi = matchesFuel a b g alo ahi blo bhi := by
  intro f
  induction f with
  | zero =>
    intro g alo ahi blo bhi h1 _
    omega
  | succ f ih =>
    intro g alo ahi blo bhi h1 h2
    rcases g with _ | g
    · omega
    · simp only [matchesFuel]
      generalize hF : find_longest_match a b alo ahi blo bhi = s
      split
      · rfl
      · rename_i hs
        have hb := flm_size_bounds a b alo ahi blo bhi (by rw [hF]; exact hs)
        rw [hF] at hb
        obtain ⟨hb1, hb2, hb3, hb4⟩ := hb
        have hs1 : 1 ≤ s.size := Nat.pos_of_ne_zero hs
        congr 1
        · congr 1
          split
          · rename_i hc
            exact ih g alo s.i blo s.j (by omega) (by omega)
          · rfl
        · split
          · rename_i hc
            exact ih g (s.i + s.size) ahi (s.j + s.size) bhi (by omega) (by omega)
          · rfl

theorem smMatches_fuel_sufficient (a b : List Char) (f : ℕ)
    (hf : a.length + b.length < f) :
    matchesFuel a b f 0 a.length 0 b.length = smMatches a b := by
  unfold smMatches
  exact matchesFuel_congr a b f (a.length + b.length + 1) 0 a.length 0 b.length
    (by omega) (by omega)

theorem char_toNat_ofNat_valid (n : ℕ) (h : n.isValidChar) :
    (Char.ofNat n).toNat = n := by
  unfold Char.ofNat
  rw [dif_pos h]
  rfl

theorem char_toLower_idem (c : Char) :
    Char.toLower (Char.toLower c) = Char.toLower c := by
  unfold Char.toLower
  by_cases h : c.toNat ≥ 65 ∧ c.toNat ≤ 90
  · rw [if_pos h]
    have hv : (c.toNat + 32).isValidChar := Or.inl (by omega)
    have hn : (Char.ofNat (c.toNat + 32)).toNat = c.toNat + 32 :=
      char_toNat_ofNat_valid _ hv
    rw [if_neg]
    rw [hn]
    omega
  · rw [if_neg h, if_neg h]

theorem pyLower_idem (s : List Char) : pyLower (pyLower s) = pyLower s := by
  unfold pyLower
  rw [List.map_map]
  exact List.map_congr_left (fun c _ => char_toLower_idem c)

/-- C7 (amended): the fallback similarity `sm_ratio_ci` — the
`SequenceMatcher` ratio on lowercased arguments used by
`search_codes_local` — lies in the range 0.0 to 1.0 and is
case-insensitive (invariant under lowercasing either argument).  The
claimed symmetry, however, fails: see `sm_ratio_ci_asymmetric_cex`. -/
theorem sm_ratio_ci_range (x y : List Char) :
    0 ≤ sm_ratio_ci x y ∧ sm_ratio_ci x y ≤ 1 ∧
    sm_ratio_ci (pyLower x) y = sm_ratio_ci x y ∧
    sm_ratio_ci x (pyLower y) = sm_ratio_ci x y := by
  have hrange : ∀ u v : List Char, 0 ≤ sm_ratio u v ∧ sm_ratio u v ≤ 1 := by
    intro u v
    unfold sm_ratio
    split
    · norm_num
    · rename_i hT
      have hTpos : (0 : ℚ) < (u.length : ℚ) + (v.length : ℚ) := by
        have hp : 0 < u.length + v.length := Nat.pos_of_ne_zero hT
        exact_mod_cast hp
      constructor
      · apply div_nonneg
        · positivity
        · linarith
      · rw [div_le_one hTpos]
        have h1 : smMatches u v ≤ u.length := by
          have hh := matchesFuel_le_left u v (u.length + v.length + 1) 0 u.length 0 v.length
          simpa [smMatches] using hh
        have h2 : smMatches u v ≤ v.length := by
          have hh := matchesFuel_le_right u v (u.length + v.length + 1) 0 u.length 0 v.length
          simpa [smMatches] using hh
        have h3 : 2 * smMatches u v ≤ u.length + v.length := by omega
        calc (2 : ℚ) * (smMatches u v : ℚ)
            = ((2 * smMatches u v : ℕ) : ℚ) := by push_cast; ring
          _ ≤ ((u.length + v.length : ℕ) : ℚ) := by exact_mod_cast h3
          _ = (u.length : ℚ) + (v.length : ℚ) := by push_cast; ring
  refine ⟨(hrange _ _).1, (hrange _ _).2, ?_, ?_⟩
  · unfold sm_ratio_ci
    rw [pyLower_idem]
  · unfold sm_ratio_ci
    rw [pyLower_idem]

/-- C7 counterexample: the similarity is not symmetric —
`ratio("ab", "bacb") = 2/3` while `ratio("bacb", "ab") = 1/3` (the
leftmost tie-breaking of `find_longest_match` interacts with the recursion
differently once the arguments are swapped). -/
theorem sm_ratio_ci_asymmetric_cex :
    sm_ratio_ci (cs "ab") (cs "bacb") ≠ sm_ratio_ci (cs "bacb") (cs "ab") := by
  have h1 : smMatches (pyLower (cs "ab")) (pyLower (cs "bacb")) = 2 := by decide
  have h2 : smMatches (pyLower (cs "bacb")) (pyLower (cs "ab")) = 1 := by decide
  have l1 : (pyLower (cs "ab")).length = 2 := by decide
  have l2 : (pyLower (cs "bacb")).length = 4 := by decide
  unfold sm_ratio_ci sm_ratio
  rw [h1, h2, l1, l2]
  norm_num
